import Mathlib

/-!
Verification of the PeakBI/vrp core specification against a shallow Lean
embedding of the covered source files.

Embedded source:
* `rosomaxa/src/algorithms/gsom/network.rs` — the GSOM `Network` (store,
  store_batch, retrain, train, update, insert, rebalance, compact,
  create_initial_nodes, update_min_max, get_avg_weights).
* `vrp-core/src/solver/mod.rs` — the `Stateful` impl of `RefinementContext`
  (set_state, get_state, state_mut).
* the capacity constraint module, which is not under `src/` (only its unit
  tests are); it is modelled from the spec, anchored to the test vectors of
  `core/tests/unit/construction/constraints/capacity_test.rs`.

Numeric model: the Rust code computes with `f64`.  We embed an `f64` value as
`Option ℚ`: `none` stands for IEEE NaN, `some q` for a finite value, and the
arithmetic is exact rational arithmetic (the concrete scenarios below only use
values on which binary floating point is itself exact).  The IEEE rules
relevant to the covered code are kept: arithmetic on NaN yields NaN, every
ordered comparison involving NaN is false, `f64::min` and `f64::max` ignore a
NaN argument, and `0.0 / 0.0` is NaN.  The only division the covered code can
perform with a zero divisor is the `0.0 / 0.0` inside `get_avg_weights`.

Nondeterminism model: the Rust `HashMap` iteration order is represented by the
order of an association list, the `thread_rng` shuffle of `rebalance` by an
explicit shuffle-function parameter, the seeded-random noise of
`create_initial_nodes` by an explicit noise-function parameter, and the
storage-defined distance (`Node::distance`, default Euclidean) by an explicit
distance-function parameter.
-/

attribute [local semireducible] Rat.add Rat.sub Rat.mul Rat.inv

/-- FQ is the embedding of an `f64` value: `none` is NaN, `some q` a finite
rational value. -/
abbrev FQ := Option ℚ

/-- Addition on embedded `f64` values; NaN propagates. -/
def FQ.add : FQ → FQ → FQ
  | some a, some b => some (a + b)
  | _, _ => none

/-- Subtraction on embedded `f64` values; NaN propagates. -/
def FQ.sub : FQ → FQ → FQ
  | some a, some b => some (a - b)
  | _, _ => none

/-- Multiplication on embedded `f64` values; NaN propagates. -/
def FQ.mul : FQ → FQ → FQ
  | some a, some b => some (a * b)
  | _, _ => none

/-- Division on embedded `f64` values.  Division by zero yields NaN; in the
covered code the only division with a possibly-zero divisor is the
`0.0 / 0.0` inside `get_avg_weights`, for which NaN is the IEEE result. -/
def FQ.div : FQ → FQ → FQ
  | some a, some b => if b = 0 then none else some (a / b)
  | _, _ => none

/-- Strict `<` on embedded `f64` values; any comparison with NaN is false
(mirrors `partial_cmp` on `f64`). -/
def FQ.blt : FQ → FQ → Bool
  | some a, some b => decide (a < b)
  | _, _ => false

/-- Comparison `e > g` of an embedded `f64` against a finite rational;
false when `e` is NaN (mirrors `f64 > f64` with a NaN operand). -/
def FQ.gtQ (e : FQ) (g : ℚ) : Bool :=
  match e with
  | some a => decide (g < a)
  | none => false

/-- Embedding of `f64::min`: a NaN argument is ignored.  The initial
accumulator `f64::MAX` of `create_initial_nodes` is modelled by `none`,
for which `fmin none w = w` plays the same identity role. -/
def FQ.fmin : FQ → FQ → FQ
  | none, b => b
  | a, none => a
  | some a, some b => some (min a b)

/-- Embedding of `f64::max`: a NaN argument is ignored; `none` doubles as the
`f64::MIN` initial accumulator of `create_initial_nodes`. -/
def FQ.fmax : FQ → FQ → FQ
  | none, b => b
  | a, none => a
  | some a, some b => some (max a b)

/-- Absolute value on embedded `f64` values; NaN propagates. -/
def FQ.fabs : FQ → FQ
  | some a => some |a|
  | none => none

/-- Coordinate of a node in the GSOM topology (`Coordinate(i32, i32)`). -/
abbrev Coord := ℤ × ℤ

/-- Componentwise coordinate addition, as in
`Coordinate(coordinate.0 + n_x, coordinate.1 + n_y)`. -/
def coordAdd (c o : Coord) : Coord := (c.1 + o.1, c.2 + o.2)

/-- Manhattan distance between two coordinates. -/
def manhattanDist (a b : Coord) : ℕ := (a.1 - b.1).natAbs + (a.2 - b.2).natAbs

/-- Modelled from the spec: `Node::neighbours` (in `gsom/node.rs`, not under
`src/`) enumerates the Chebyshev-radius-`r` patch around a node minus its
center — per the spec glossary, neighbours within radius 2 are the 5×5 patch
minus the center.  The enumeration order stands in for the implementation's
unspecified offset order. -/
def chebOffsets (r : ℕ) : List (ℤ × ℤ) :=
  (((List.range (2 * r + 1)).map (fun i =>
      (List.range (2 * r + 1)).map (fun j => ((i : ℤ) - r, (j : ℤ) - r)))).flatten).filter
    (fun o => o ≠ ((0 : ℤ), (0 : ℤ)))

/-- Offsets of the four cardinal directions: the radius-1 patch restricted by
`x.abs() + y.abs() < 2`, exactly as `Network::update` restricts growth and as
the spec defines `is_boundary` via 4-neighbours. -/
def cardinalOffsets : List (ℤ × ℤ) :=
  (chebOffsets 1).filter (fun o => o.1.natAbs + o.2.natAbs < 2)

/-- A GSOM node (`gsom/node.rs`): coordinate, weight vector, accumulated
error, usage history and the storage of inputs mapped to it.  The usage
history and the storage content are modelled from the spec (`node.rs` is not
under `src/`): a hit list truncated to `rebalance_memory`, and a list of
stored inputs in insertion order. -/
structure GNode where
  coordinate : Coord
  weights : List FQ
  error : FQ
  hits : List ℕ
  storage : List (List FQ)
deriving DecidableEq

/-- Modelled from the spec: `Node::new_hit` records a hit at the given time in
the usage ring buffer of length `rebalance_memory`. -/
def newHit (t : ℕ) (mem : ℕ) (hs : List ℕ) : List ℕ := (t :: hs).take mem

/-- State of the GSOM `Network` (`network.rs`).  The association list `nodes`
plays the role of the `HashMap`; its order models the unspecified map
iteration order.  `inserted` is a ghost history of every weight vector ever
passed to `insert` (and of the initial noisy root weights); no operation reads
it, it only serves to state the envelope invariant. -/
structure NetState where
  dimension : ℕ
  growing_threshold : ℚ
  distribution_factor : ℚ
  learning_rate : ℚ
  time : ℕ
  rebalance_memory : ℕ
  min_max_weights : List FQ × List FQ
  nodes : List (Coord × GNode)
  inserted : List (List FQ)
deriving DecidableEq

/-- GSOM network configuration (`NetworkConfig`).  The field
`spread_factor_log2` carries `log₂ spread_factor` exactly, so that
`growing_threshold = -1 * dimension * spread_factor.log2()` is representable;
the concrete scenarios below use power-of-two spread factors. -/
structure NetworkConfig where
  spread_factor_log2 : ℚ
  distribution_factor : ℚ
  learning_rate : ℚ
  rebalance_memory : ℕ
  has_initial_error : Bool

/-- Lookup in the coordinate-keyed association list (`HashMap::get`). -/
def lookupKey : List (Coord × GNode) → Coord → Option GNode
  | [], _ => none
  | p :: rest, c => if p.1 = c then some p.2 else lookupKey rest c

/-- Pointwise modification of the node stored at a coordinate; a no-op when
the coordinate is absent (mirrors the `if let Some(n)` guards). -/
def modifyKey (c : Coord) (f : GNode → GNode) (l : List (Coord × GNode)) :
    List (Coord × GNode) :=
  l.map (fun p => if p.1 = c then (p.1, f p.2) else p)

/-- Insertion in the association list (`HashMap::insert`): replaces the entry
when the key is present, otherwise appends. -/
def insertKey : List (Coord × GNode) → Coord → GNode → List (Coord × GNode)
  | [], c, n => [(c, n)]
  | p :: rest, c, n => if p.1 = c then (c, n) :: rest else p :: insertKey rest c n

/-- Removal from the association list (`HashMap::remove`). -/
def eraseKey (c : Coord) : List (Coord × GNode) → List (Coord × GNode)
  | [] => []
  | p :: rest => if p.1 = c then rest else p :: eraseKey c rest

namespace Network

/-- Embedding of `update_min_max`: elementwise `f64::min`/`f64::max` of the
running envelope with a weight vector. -/
def update_min_max (mm : List FQ × List FQ) (w : List FQ) : List FQ × List FQ :=
  (List.zipWith FQ.fmin mm.1 w, List.zipWith FQ.fmax mm.2 w)

/-- Embedding of `get_avg_weights`: sum the weight vectors into a zero
accumulator of length `dimension`, then divide each component by the number of
vectors.  For an empty collection this divides `0.0` by `0.0`, which is NaN. -/
def get_avg_weights (ws : List (List FQ)) (dimension : ℕ) : List FQ :=
  let sum := ws.foldl (fun (acc : List FQ × ℕ) w =>
    (List.zipWith FQ.add acc.1 w, acc.2 + 1)) (List.replicate dimension (some 0), 0)
  sum.1.map (fun v => FQ.div v (some (sum.2 : ℚ)))

/-- Per-dimension weight combination of the growth cases a/b/c in
`Network::update`: `if w2 > w1 { w1 - (w2 - w1) } else { w1 + (w1 - w2) }`. -/
def growthCombine (w1 w2 : FQ) : FQ :=
  if FQ.blt w1 w2 then FQ.sub w1 (FQ.sub w2 w1) else FQ.add w1 (FQ.sub w1 w2)

/-- Present neighbours of a (new) coordinate within Chebyshev radius 2,
together with their offsets, as collected by `new_node.neighbours(self, 2)`
followed by the `filter_map` on present nodes. -/
def neighbourWeights (l : List (Coord × GNode)) (nc : Coord) :
    List (List FQ × (ℤ × ℤ)) :=
  (chebOffsets 2).filterMap
    (fun o => (lookupKey l (coordAdd nc o)).map (fun nn => (nn.weights, o)))

/-- Weight vectors of the close neighbours (Manhattan offset < 2) of a new
node, the first component of the `partition` in `Network::update`. -/
def closeWeights (l : List (Coord × GNode)) (nc : Coord) : List (List FQ) :=
  ((neighbourWeights l nc).filter (fun q => q.2.1.natAbs + q.2.2.natAbs < 2)).map
    (fun q => q.1)

/-- Weight vectors of the far neighbours (Manhattan offset ≥ 2) of a new node,
the second component of the `partition` in `Network::update`. -/
def farWeights (l : List (Coord × GNode)) (nc : Coord) : List (List FQ) :=
  ((neighbourWeights l nc).filter (fun q => ¬(q.2.1.natAbs + q.2.2.natAbs < 2))).map
    (fun q => q.1)

/-- Weight vector of a node grown at coordinate `nc`, as computed by the
`(true, true)` branch of `Network::update`: case d (exactly one close
neighbour, no far neighbour) takes the midpoint of the min/max envelope,
otherwise the cases a/b/c combine the close and far average per dimension. -/
def growNodeWeights (s : NetState) (nc : Coord) : List FQ :=
  if (closeWeights s.nodes nc).length = 1 ∧ farWeights s.nodes nc = [] then
    List.zipWith (fun mn mx => FQ.div (FQ.add mn mx) (some 2))
      s.min_max_weights.1 s.min_max_weights.2
  else
    List.zipWith growthCombine
      (get_avg_weights (closeWeights s.nodes nc) s.dimension)
      (get_avg_weights (farWeights s.nodes nc) s.dimension)

/-- Boundary test: a node is a boundary node when one of its four cardinal
neighbour coordinates is absent from the map (spec: `is_boundary` exists a
4-neighbor coordinate not present). -/
def isBoundaryL (l : List (Coord × GNode)) (c : Coord) : Bool :=
  cardinalOffsets.any (fun o => (lookupKey l (coordAdd c o)).isNone)

/-- Error-distribution pass of the `(true, false)` branch: set the BMU error
to `0.5 * growing_threshold`, then for each present neighbour within Chebyshev
radius 2 at offset `(x, y)` add `distribution_factor / (|x| + |y|)` times the
neighbour's own error to its error.  `scaleError` is the per-neighbour step
(`node.error += distribution_factor * node.error` under the shadowing `node`
binding of the neighbour). -/
def scaleError (fd : ℚ) (o : ℤ × ℤ) (n : GNode) : GNode :=
  { n with error :=
      FQ.add n.error (FQ.mul (some (fd / ((o.1.natAbs + o.2.natAbs : ℕ) : ℚ))) n.error) }

/-- Error-distribution pass, continued: fold the neighbour updates over the
radius-2 offsets after resetting the BMU error. -/
def distributeNodes (gt fd : ℚ) (c : Coord) (l : List (Coord × GNode)) :
    List (Coord × GNode) :=
  (chebOffsets 2).foldl
    (fun ns o => modifyKey (coordAdd c o) (scaleError fd o) ns)
    (modifyKey c (fun n => { n with error := some (gt / 2) }) l)

/-- Modelled from the spec: `Node::adjust` (in `gsom/node.rs`, not under
`src/`) moves a weight vector toward the input by the learning rate:
`w := w + η * (v - w)` per dimension. -/
def adjustW (w v : List FQ) (lr : ℚ) : List FQ :=
  List.zipWith (fun wi vi => FQ.add wi (FQ.mul (some lr) (FQ.sub vi wi))) w v

/-- Weight-adjustment pass of the fall-through branch: adjust the BMU and
every present neighbour within Chebyshev radius 2 with the effective learning
rate. -/
def adjustNodes (lr : ℚ) (c : Coord) (input : List FQ)
    (l : List (Coord × GNode)) : List (Coord × GNode) :=
  (chebOffsets 2).foldl
    (fun ns o => modifyKey (coordAdd c o)
      (fun n => { n with weights := adjustW n.weights input lr }) ns)
    (modifyKey c (fun n => { n with weights := adjustW n.weights input lr }) l)

/-- Insertion of a grown node (`Network::insert` followed by `create_node`):
update the envelope with the new weights and insert a fresh node with zero
error and empty storage.  The ghost `inserted` history records the weights. -/
def insertNode (s : NetState) (nc : Coord) (w : List FQ) : NetState :=
  { s with
    min_max_weights := update_min_max s.min_max_weights w,
    inserted := s.inserted ++ [w],
    nodes := insertKey s.nodes nc
      { coordinate := nc, weights := w, error := some 0, hits := [], storage := [] } }

/-- First step of `Network::update`: add the found error to the BMU's
accumulated error and, for a new input, record a hit at the current time. -/
def accumulate (s : NetState) (err : FQ) (isNew : Bool) (n : GNode) : GNode :=
  { n with
    error := FQ.add n.error err,
    hits := if isNew then newHit s.time s.rebalance_memory n.hits else n.hits }

/-- Embedding of `Network::update`: accumulate the error on the BMU (recording
a hit for new inputs), classify it by `(error > growing_threshold,
is_boundary)`, and either distribute the error, grow new nodes in the absent
cardinal directions, or adjust weights with the effective learning rate
`learning_rate * (1 - 3.8 / nodes.len())`. -/
def update (s : NetState) (c : Coord) (input : List FQ) (err : FQ)
    (isNew : Bool) : NetState :=
  let l1 := modifyKey c (accumulate s err isNew) s.nodes
  let s1 : NetState := { s with nodes := l1 }
  match lookupKey l1 c with
  | none => s1
  | some n =>
    let exceeds := FQ.gtQ n.error s.growing_threshold
    let bdry := isBoundaryL l1 c
    if exceeds && !bdry then
      { s1 with nodes := distributeNodes s.growing_threshold s.distribution_factor c l1 }
    else if exceeds && bdry then
      let offs := cardinalOffsets.filter (fun o => (lookupKey l1 (coordAdd c o)).isNone)
      let newNodes := offs.map (fun o =>
        let nc := coordAdd c o
        (nc, growNodeWeights s1 nc))
      newNodes.foldl (fun st q => insertNode st q.1 q.2) s1
    else
      { s1 with nodes :=
        adjustNodes (s.learning_rate * (1 - (19 / 5) / (l1.length : ℚ))) c input l1 }

/-- Embedding of `Network::find_bmu`: minimize the storage-defined distance
over the nodes in map order; `min_by` keeps the first strict minimum and a
NaN comparison (`partial_cmp … unwrap_or(Less)`) keeps the accumulator. -/
def find_bmu (dist : List FQ → List FQ → FQ) (s : NetState) (input : List FQ) :
    Option (Coord × GNode) :=
  (s.nodes.foldl
    (fun (acc : Option (Coord × GNode × FQ)) p =>
      let d := dist p.2.weights input
      match acc with
      | none => some (p.1, p.2, d)
      | some b => if FQ.blt d b.2.2 then some (p.1, p.2, d) else some b)
    none).map (fun q => (q.1, q.2.1))

/-- Append an input to the storage of the node at a coordinate
(`bmu.write().unwrap().storage.add(input)`). -/
def addToStorage (s : NetState) (c : Coord) (input : List FQ) : NetState :=
  { s with nodes := modifyKey c (fun n => { n with storage := n.storage ++ [input] }) s.nodes }

/-- Embedding of `Network::train`: find the BMU, compute its distance to the
input as the error, update the network, then add the input to the BMU
storage.  The `expect("no nodes")` panic of `find_bmu` on an empty map is
unreachable (the network always has at least four nodes) and modelled as a
no-op. -/
def train (dist : List FQ → List FQ → FQ) (s : NetState) (input : List FQ)
    (isNew : Bool) : NetState :=
  match find_bmu dist s input with
  | none => s
  | some (c, n) => addToStorage (update s c input (dist n.weights input) isNew) c input

/-- Embedding of `Network::store`: set the time, then train as a new input. -/
def store (dist : List FQ → List FQ → FQ) (s : NetState) (input : List FQ)
    (t : ℕ) : NetState :=
  train dist { s with time := t } input true

/-- Embedding of `Network::store_batch` and `train_batch`: the read-only
parallel phase computes each input's BMU and error against the pre-batch
state; the serial phase then applies the updates in input order. -/
def store_batch (dist : List FQ → List FQ → FQ) (s : NetState)
    (inputs : List (List FQ)) (t : ℕ) : NetState :=
  let s0 : NetState := { s with time := t }
  let phase1 := inputs.map (fun it => (find_bmu dist s0 it, it))
  phase1.foldl
    (fun st q =>
      match q.1 with
      | none => st
      | some (c, n) =>
        addToStorage (update st c q.2 (dist n.weights q.2) true) c q.2)
    s0

/-- Embedding of `Network::rebalance`: for each of `rebalance_count`
iterations, drain every storage in map order, shuffle the drained inputs
(`data.shuffle(&mut rand::thread_rng())`, modelled by the shuffle-function
parameter indexed by the iteration), and replay each input through `train`
with `is_new = false`. -/
def rebalance (dist : List FQ → List FQ → FQ)
    (sh : ℕ → List (List FQ) → List (List FQ)) (s : NetState)
    (count : ℕ) : NetState :=
  (List.range count).foldl
    (fun st k =>
      let drained := (st.nodes.map (fun p => p.2.storage)).flatten
      let cleared : NetState :=
        { st with nodes := st.nodes.map (fun p => (p.1, { p.2 with storage := [] })) }
      (sh k drained).foldl (fun st2 it => train dist st2 it false) cleared)
    s

/-- Embedding of `Network::compact`: walk the nodes in map order, schedule the
nodes rejected by the filter for removal as long as the network would keep
more than 4 nodes, then remove the scheduled coordinates. -/
def compact (s : NetState) (keep : GNode → Bool) : NetState :=
  let original := s.nodes.length
  let removed := (s.nodes.filter (fun p => !keep p.2)).foldl
    (fun (acc : List Coord) p =>
      if original - acc.length > 4 then acc ++ [p.1] else acc) []
  { s with nodes := removed.foldl (fun ns c => eraseKey c ns) s.nodes }

/-- Embedding of `Network::retrain`: compact, rebalance, compact. -/
def retrain (dist : List FQ → List FQ → FQ)
    (sh : ℕ → List (List FQ) → List (List FQ)) (s : NetState) (count : ℕ)
    (keep : GNode → Bool) : NetState :=
  compact (rebalance dist sh (compact s keep) count) keep

/-- Embedding of `Network::new` and `create_initial_nodes`: four root inputs
become nodes at `(0,0), (0,1), (1,1), (1,0)` with noise-perturbed weights, the
root input in their storage and the configured initial error; the envelope is
folded from `f64::MAX`/`f64::MIN` accumulators (embedded as `none`) over the
node weights.  `growing_threshold = -1 * dimension * log₂ spread_factor`. -/
def new (r00 r01 r11 r10 : List FQ) (cfg : NetworkConfig)
    (noiseF : FQ → FQ) : NetState :=
  let d := r00.length
  let gt := -(d : ℚ) * cfg.spread_factor_log2
  let ie : FQ := some (if cfg.has_initial_error then gt else 0)
  let mkRoot := fun (c : Coord) (root : List FQ) =>
    (c, ({ coordinate := c, weights := root.map noiseF, error := ie,
            hits := [], storage := [root] } : GNode))
  let ns := [mkRoot (0, 0) r00, mkRoot (0, 1) r01, mkRoot (1, 1) r11, mkRoot (1, 0) r10]
  { dimension := d
    growing_threshold := gt
    distribution_factor := cfg.distribution_factor
    learning_rate := cfg.learning_rate
    time := 0
    rebalance_memory := cfg.rebalance_memory
    min_max_weights := ns.foldl (fun mm p => update_min_max mm p.2.weights)
      (List.replicate d none, List.replicate d none)
    nodes := ns
    inserted := ns.map (fun p => p.2.weights) }

end Network

/-- Public operations of the network, the alphabet of the operation sequences
the invariants quantify over. -/
inductive NetOp where
  | opStore (input : List FQ) (t : ℕ)
  | opStoreBatch (inputs : List (List FQ)) (t : ℕ)
  | opRetrain (count : ℕ) (keep : GNode → Bool)

/-- A retrain operation consumes draws of the unseeded `thread_rng` shuffle;
store and store_batch do not. -/
def NetOp.usesShuffle : NetOp → Bool
  | .opRetrain _ _ => true
  | _ => false

/-- Apply one public operation. -/
def applyOp (dist : List FQ → List FQ → FQ)
    (sh : ℕ → List (List FQ) → List (List FQ)) (s : NetState) :
    NetOp → NetState
  | .opStore input t => Network.store dist s input t
  | .opStoreBatch inputs t => Network.store_batch dist s inputs t
  | .opRetrain count keep => Network.retrain dist sh s count keep

/-- Apply a sequence of public operations. -/
def applyOps (dist : List FQ → List FQ → FQ)
    (sh : ℕ → List (List FQ) → List (List FQ)) (s : NetState)
    (ops : List NetOp) : NetState :=
  ops.foldl (applyOp dist sh) s

/-- Specification-side definition (for comparison with `min_max_weights`):
the elementwise min/max envelope of the weight vectors of the nodes currently
present in the network. -/
def envelopeOfNodes (s : NetState) : List FQ × List FQ :=
  s.nodes.foldl (fun mm p => Network.update_min_max mm p.2.weights)
    (List.replicate s.dimension none, List.replicate s.dimension none)

/-- Elementwise min/max envelope of a list of weight vectors; used to state
what `min_max_weights` actually tracks (the inserted-weights history). -/
def envelopeOfList (d : ℕ) (ws : List (List FQ)) : List FQ × List FQ :=
  ws.foldl Network.update_min_max (List.replicate d none, List.replicate d none)

namespace Capacity

/-- Modelled from the spec: the capacity constraint module
(`construction/constraints/capacity.rs`) is not under `src/`; only its unit
tests are.  Spec §4.2.1: demand is a signed scalar, positive for pick-up and
negative for delivery, and `current[start] = -Σ negative_demands`.
`negativeDemandSum` is that sum of the negative demands. -/
def negativeDemandSum (demands : List ℤ) : ℤ := (demands.filter (fun d => d < 0)).sum

/-- Modelled from the spec: the start activity's `CURRENT_CAPACITY` state,
`-Σ negative_demands` (the starting load accounts for deliveries that must
begin on board). -/
def startLoad (demands : List ℤ) : ℤ := -negativeDemandSum demands

/-- Modelled from the spec: the `CURRENT_CAPACITY` states along the route as
positions 0 (start activity) through n (after activity n), computed by the
prefix-sum recurrence `current[i] = current[i-1] + demand[i]` that
`accept_route_state` establishes. -/
def currentLoads (demands : List ℤ) : List ℤ :=
  List.scanl (· + ·) (startLoad demands) demands

/-- Modelled from the spec: the `(start, activities, end)` triple of
`CURRENT_CAPACITY` states that `accept_route_state` writes; the synthetic end
activity carries the value after the last activity. -/
def capacityStates (demands : List ℤ) : ℤ × List ℤ × ℤ :=
  (startLoad demands, (currentLoads demands).tail, demands.foldl (· + ·) (startLoad demands))

/-- Modelled from the spec: `MAX_FUTURE_CAPACITY` at position `i`,
`max over j ≥ i of current[j]`. -/
def maxFutureAt (demands : List ℤ) (i : ℕ) : ℤ :=
  ((currentLoads demands).drop i).foldl max ((currentLoads demands).getD i 0)

/-- Modelled from the spec: `MAX_PAST_CAPACITY` at position `i`,
`max over j ≤ i of current[j]`. -/
def maxPastAt (demands : List ℤ) (i : ℕ) : ℤ :=
  ((currentLoads demands).take (i + 1)).foldl max ((currentLoads demands).getD i 0)

/-- Modelled from the spec: `evaluate_hard_activity` of the capacity module at
an insertion whose `prev` activity sits at position `prevIdx` (0 = start,
`k` = after activity `k`), for a candidate demand `d` against the vehicle
capacity.  A positive (pick-up) demand violates when it pushes the maximal
future load over the capacity; a negative (delivery) demand violates when the
maximal past load plus the delivery size exceeds the capacity.  The violation
is `ActivityConstraintViolation { code: 2, stopped: false }`, the pair
`(2, false)` here; the model reproduces all eleven rows of
`can_evaluate_demand_on_activity`. -/
def evaluate_hard_activity (capacity : ℤ) (demands : List ℤ) (prevIdx : ℕ)
    (d : ℤ) : Option (ℤ × Bool) :=
  if 0 < d then
    if capacity < maxFutureAt demands prevIdx + d then some (2, false) else none
  else if d < 0 then
    if capacity < maxPastAt demands prevIdx + (-d) then some (2, false) else none
  else none

end Capacity

/-- A type-erased stateful value (`Box<dyn Any>`): one constructor per
payload type, standing for the runtime type tags of `Any`. -/
inductive SVal where
  | vNat (n : ℕ)
  | vBool (b : Bool)
  | vListNat (l : List ℕ)
deriving DecidableEq

/-- Runtime type tag of a type-erased value. -/
inductive STy where
  | tNat
  | tBool
  | tListNat
deriving DecidableEq

/-- Tag carried by a stored value. -/
def SVal.ty : SVal → STy
  | .vNat _ => .tNat
  | .vBool _ => .tBool
  | .vListNat _ => .tListNat

/-- Embedding of `Any::downcast_ref::<T>`: the value when its runtime type
matches the requested one, `None` otherwise. -/
def downcastRef (want : STy) (v : SVal) : Option SVal :=
  if v.ty = want then some v else none

/-- Result of an operation that can panic (`unwrap` on a failed downcast). -/
inductive PanicOr (α : Type) where
  | panicked
  | ok (a : α)
deriving DecidableEq

namespace Stateful

/-- Keyed opaque state map of `RefinementContext`
(`HashMap<String, Box<dyn Any>>`); keys are embedded as naturals. -/
abbrev StateMap := List (ℕ × SVal)

/-- Lookup in the keyed state map. -/
def lookupState : StateMap → ℕ → Option SVal
  | [], _ => none
  | p :: rest, k => if p.1 = k then some p.2 else lookupState rest k

/-- Embedding of `RefinementContext::set_state`:
`self.state.insert(key, Box::new(state))`. -/
def set_state : StateMap → ℕ → SVal → StateMap
  | [], k, v => [(k, v)]
  | p :: rest, k, v => if p.1 = k then (k, v) :: rest else p :: set_state rest k v

/-- Embedding of `RefinementContext::get_state`:
`self.state.get(key).and_then(|v| v.downcast_ref::<T>())`.  The function is
total: a mismatched type yields `none`, exactly like an absent key. -/
def get_state (m : StateMap) (k : ℕ) (want : STy) : Option SVal :=
  (lookupState m k).bind (downcastRef want)

/-- Embedding of `RefinementContext::state_mut`:
`self.state.entry(key).or_insert_with(inserter).downcast_mut::<T>().unwrap()`;
the `unwrap` panics when the downcast fails. -/
def state_mut (m : StateMap) (k : ℕ) (want : STy) (inserter : Unit → SVal) :
    PanicOr (SVal × StateMap) :=
  match lookupState m k with
  | some v =>
    match downcastRef want v with
    | some v2 => .ok (v2, m)
    | none => .panicked
  | none =>
    let v := inserter ()
    match downcastRef want v with
    | some v2 => .ok (v2, set_state m k v)
    | none => .panicked

end Stateful

theorem lookup_modifyKey_self (c : Coord) (f : GNode → GNode)
    (l : List (Coord × GNode)) :
    lookupKey (modifyKey c f l) c = (lookupKey l c).map f := by
  induction l with
  | nil => simp [modifyKey, lookupKey]
  | cons p rest ih =>
    by_cases h : p.1 = c
    · simp [modifyKey, lookupKey, h]
    · simp only [modifyKey, List.map_cons, if_neg h, lookupKey]
      simpa [modifyKey] using ih

theorem lookup_modifyKey_ne (c : Coord) (f : GNode → GNode)
    (l : List (Coord × GNode)) (c' : Coord) (hne : c' ≠ c) :
    lookupKey (modifyKey c f l) c' = lookupKey l c' := by
  induction l with
  | nil => simp [modifyKey, lookupKey]
  | cons p rest ih =>
    by_cases h : p.1 = c
    · have h2 : ¬p.1 = c' := by rw [h]; exact fun hh => hne hh.symm
      simp only [modifyKey, List.map_cons, if_pos h, lookupKey]
      rw [if_neg h2, if_neg h2]
      simpa [modifyKey] using ih
    · by_cases h2 : p.1 = c'
      · simp [modifyKey, lookupKey, h, h2, hne]
      · simp only [modifyKey, List.map_cons, if_neg h, lookupKey, if_neg h2]
        simpa [modifyKey] using ih

theorem keys_modifyKey (c : Coord) (f : GNode → GNode) (l : List (Coord × GNode)) :
    (modifyKey c f l).map Prod.fst = l.map Prod.fst := by
  induction l with
  | nil => rfl
  | cons p rest ih =>
    by_cases h : p.1 = c <;> simp [modifyKey, h] <;> simpa [modifyKey] using ih

theorem length_modifyKey (c : Coord) (f : GNode → GNode) (l : List (Coord × GNode)) :
    (modifyKey c f l).length = l.length := by
  simp [modifyKey]

theorem isNone_lookup_modifyKey (c : Coord) (f : GNode → GNode)
    (l : List (Coord × GNode)) (c' : Coord) :
    (lookupKey (modifyKey c f l) c').isNone = (lookupKey l c').isNone := by
  by_cases h : c' = c
  · subst h
    rw [lookup_modifyKey_self]
    cases lookupKey l c' <;> simp
  · rw [lookup_modifyKey_ne _ _ _ _ h]

theorem isBoundaryL_modifyKey (c : Coord) (f : GNode → GNode)
    (l : List (Coord × GNode)) (x : Coord) :
    Network.isBoundaryL (modifyKey c f l) x = Network.isBoundaryL l x := by
  simp [Network.isBoundaryL, isNone_lookup_modifyKey]

theorem lookup_insertKey_self (l : List (Coord × GNode)) (c : Coord) (n : GNode) :
    lookupKey (insertKey l c n) c = some n := by
  induction l with
  | nil => simp [insertKey, lookupKey]
  | cons p rest ih =>
    by_cases h : p.1 = c
    · simp [insertKey, lookupKey, h]
    · simp only [insertKey, if_neg h, lookupKey, if_neg h]
      exact ih

theorem lookup_insertKey_ne (l : List (Coord × GNode)) (c : Coord) (n : GNode)
    (c' : Coord) (hne : c' ≠ c) :
    lookupKey (insertKey l c n) c' = lookupKey l c' := by
  induction l with
  | nil =>
    simp only [insertKey, lookupKey]
    rw [if_neg (fun hh : c = c' => hne hh.symm)]
  | cons p rest ih =>
    by_cases h : p.1 = c
    · have h2 : ¬c = c' := fun hh => hne hh.symm
      have h3 : ¬p.1 = c' := by rw [h]; exact h2
      simp only [insertKey, if_pos h, lookupKey]
      rw [if_neg h2, if_neg h3]
    · by_cases h2 : p.1 = c'
      · simp [insertKey, lookupKey, h, h2, hne]
      · simp only [insertKey, if_neg h, lookupKey, if_neg h2]
        exact ih

theorem length_le_insertKey (l : List (Coord × GNode)) (c : Coord) (n : GNode) :
    l.length ≤ (insertKey l c n).length := by
  induction l with
  | nil => simp [insertKey]
  | cons p rest ih =>
    by_cases h : p.1 = c <;> simp [insertKey, h] <;> omega

theorem mem_keys_insertKey (l : List (Coord × GNode)) (c : Coord) (n : GNode)
    (k : Coord) (hk : k ∈ (insertKey l c n).map Prod.fst) :
    k = c ∨ k ∈ l.map Prod.fst := by
  induction l with
  | nil => simpa [insertKey] using hk
  | cons p rest ih =>
    by_cases h : p.1 = c
    · simp only [insertKey, if_pos h, List.map_cons, List.mem_cons] at hk
      rcases hk with hk | hk
      · exact Or.inl hk
      · exact Or.inr (by simp [hk])
    · simp only [insertKey, if_neg h, List.map_cons, List.mem_cons] at hk
      rcases hk with hk | hk
      · exact Or.inr (by simp [hk])
      · rcases ih hk with hk | hk
        · exact Or.inl hk
        · exact Or.inr (by simp [hk])

theorem length_eraseKey_ge (c : Coord) (l : List (Coord × GNode)) :
    l.length - 1 ≤ (eraseKey c l).length := by
  induction l with
  | nil => simp [eraseKey]
  | cons p rest ih =>
    by_cases h : p.1 = c <;> simp [eraseKey, h] <;> omega

theorem coord_sub_eq (c c' : Coord) (o : ℤ × ℤ) :
    ((c'.1 - c.1, c'.2 - c.2) = o) ↔ c' = coordAdd c o := by
  cases c with
  | mk cx cy =>
    cases c' with
    | mk dx dy =>
      cases o with
      | mk ox oy =>
        simp only [coordAdd, Prod.mk.injEq]
        constructor
        · rintro ⟨h1, h2⟩; constructor <;> omega
        · rintro ⟨h1, h2⟩; constructor <;> omega

theorem keys_foldl_modify {α : Type} (key : α → Coord) (g : α → GNode → GNode) :
    ∀ (offs : List α) (l : List (Coord × GNode)),
      ((offs.foldl (fun ns o => modifyKey (key o) (g o) ns) l).map Prod.fst) =
        l.map Prod.fst := by
  intro offs
  induction offs with
  | nil => intro l; rfl
  | cons o rest ih =>
    intro l
    rw [List.foldl_cons, ih, keys_modifyKey]

theorem length_foldl_modify {α : Type} (key : α → Coord) (g : α → GNode → GNode) :
    ∀ (offs : List α) (l : List (Coord × GNode)),
      (offs.foldl (fun ns o => modifyKey (key o) (g o) ns) l).length = l.length := by
  intro offs
  induction offs with
  | nil => intro l; rfl
  | cons o rest ih =>
    intro l
    rw [List.foldl_cons, ih, length_modifyKey]

theorem lookup_foldl_modify (g : (ℤ × ℤ) → GNode → GNode) (c c' : Coord) :
    ∀ (offs : List (ℤ × ℤ)) (l : List (Coord × GNode)), offs.Nodup →
      lookupKey (offs.foldl (fun ns o => modifyKey (coordAdd c o) (g o) ns) l) c' =
        if (c'.1 - c.1, c'.2 - c.2) ∈ offs then
          (lookupKey l c').map (g (c'.1 - c.1, c'.2 - c.2))
        else lookupKey l c' := by
  intro offs
  induction offs with
  | nil => intro l _; simp
  | cons o rest ih =>
    intro l hnd
    rw [List.foldl_cons, ih _ (List.Nodup.of_cons hnd)]
    by_cases hoc : (c'.1 - c.1, c'.2 - c.2) = o
    · have hco : c' = coordAdd c o := (coord_sub_eq c c' o).mp hoc
      have hnr : (c'.1 - c.1, c'.2 - c.2) ∉ rest := by
        rw [hoc]; exact (List.nodup_cons.mp hnd).1
      rw [if_neg hnr, if_pos (by simp [hoc]), hoc, hco]
      exact lookup_modifyKey_self _ _ _
    · have hne : c' ≠ coordAdd c o := fun h => hoc ((coord_sub_eq c c' o).mpr h)
      rw [lookup_modifyKey_ne _ _ _ _ hne]
      by_cases hr : (c'.1 - c.1, c'.2 - c.2) ∈ rest
      · rw [if_pos hr, if_pos (by simp [hr])]
      · rw [if_neg hr, if_neg (by simp [hoc, hr])]

set_option maxHeartbeats 1600000 in
theorem mem_chebOffsets_two (o : ℤ × ℤ) :
    o ∈ chebOffsets 2 ↔ o ≠ (0, 0) ∧ o.1.natAbs ≤ 2 ∧ o.2.natAbs ≤ 2 := by
  have he : chebOffsets 2 = [(-2, -2), (-2, -1), (-2, 0), (-2, 1), (-2, 2),
      (-1, -2), (-1, -1), (-1, 0), (-1, 1), (-1, 2),
      (0, -2), (0, -1), (0, 1), (0, 2),
      (1, -2), (1, -1), (1, 0), (1, 1), (1, 2),
      (2, -2), (2, -1), (2, 0), (2, 1), (2, 2)] := by decide
  rw [he]
  cases o with
  | mk x y =>
    dsimp only
    constructor
    · intro h
      simp only [List.mem_cons, Prod.mk.injEq, List.not_mem_nil, or_false] at h
      refine ⟨fun hc => ?_, ?_, ?_⟩
      · rw [Prod.mk.injEq] at hc
        omega
      · omega
      · omega
    · rintro ⟨hne, hx, hy⟩
      simp only [List.mem_cons, Prod.mk.injEq, List.not_mem_nil, or_false]
      have hne2 : ¬(x = 0 ∧ y = 0) := fun hc => hne (by rw [Prod.mk.injEq]; exact hc)
      have hx1 : -2 ≤ x := by omega
      have hx2 : x ≤ 2 := by omega
      have hy1 : -2 ≤ y := by omega
      have hy2 : y ≤ 2 := by omega
      interval_cases x <;> interval_cases y <;> simp_all

example : Network.get_avg_weights [] 1 = [none] := by decide

example : Network.get_avg_weights [[some 1], [some 3]] 1 = [some 2] := by decide

example : chebOffsets 1 =
    [(-1, -1), (-1, 0), (-1, 1), (0, -1), (0, 1), (1, -1), (1, 0), (1, 1)] := by decide

example : cardinalOffsets = [(-1, 0), (0, -1), (0, 1), (1, 0)] := by decide

example : Capacity.capacityStates [-1, 2, -3] = (4, [3, 5, 2], 2) := by decide

example : Capacity.capacityStates [1, -2, 3] = (2, [3, 1, 4], 4) := by decide

example : Capacity.capacityStates [0, 1, 0] = (0, [0, 1, 1], 1) := by decide

example : Capacity.evaluate_hard_activity 10 [1, 1] 1 1 = none := by decide

example : Capacity.evaluate_hard_activity 10 [1, 1] 1 10 = some (2, false) := by decide

example : Capacity.evaluate_hard_activity 10 [-5, -5] 1 (-1) = some (2, false) := by decide

example : Capacity.evaluate_hard_activity 10 [5, 5] 1 1 = some (2, false) := by decide

example : Capacity.evaluate_hard_activity 10 [-5, 5] 1 1 = none := by decide

example : Capacity.evaluate_hard_activity 10 [5, -5] 1 1 = some (2, false) := by decide

example : Capacity.evaluate_hard_activity 10 [4, -5] 1 (-1) = none := by decide

example : Capacity.evaluate_hard_activity 10 [-3, -5, -2] 0 (-1) = some (2, false) := by decide

example : Capacity.evaluate_hard_activity 10 [-3, -5, -2] 1 (-1) = some (2, false) := by decide

example : Capacity.evaluate_hard_activity 10 [-3, -5, -2] 3 (-1) = some (2, false) := by decide

/-- One-dimensional distance instance: the absolute difference, which is the
(default) Euclidean distance in dimension one, summed L1-style over the
components. -/
def distAbs : List FQ → List FQ → FQ := fun a b =>
  (List.zipWith (fun x y => FQ.fabs (FQ.sub x y)) a b).foldl FQ.add (some 0)

/-- Identity shuffle draw of `thread_rng` (every pass keeps the drained
order). -/
def shuffleA : ℕ → List (List FQ) → List (List FQ) := fun _ l => l

/-- Alternative shuffle draw of `thread_rng`: the second rebalance pass
reverses the drained order (a permutation, as every shuffle outcome is). -/
def shuffleB : ℕ → List (List FQ) → List (List FQ) := fun k l =>
  if k = 1 then l.reverse else l

/-- Identity noise draw: every sampled multiplicative factor is `1.0`, inside
the configured `[0.95, 1.05]` range. -/
def idNoise : FQ → FQ := fun v => v

/-- Noise draw where every sampled multiplicative factor is `0.95`, the lower
end of the configured range. -/
def noise95 : FQ → FQ := fun v => FQ.mul v (some (19 / 20))

/-- Root input with weight vector `[0]`. -/
def iW0 : List FQ := [some 0]

/-- Root input with weight vector `[10]`. -/
def iW10 : List FQ := [some 10]

/-- Root input with weight vector `[20]`. -/
def iW20 : List FQ := [some 20]

/-- Root input with weight vector `[30]`. -/
def iW30 : List FQ := [some 30]

/-- Configuration with spread factor `1/2` (growing threshold 1 in dimension
one), distribution factor `1/2`, learning rate 0. -/
def cfgGT1 : NetworkConfig :=
  { spread_factor_log2 := -1, distribution_factor := 1 / 2, learning_rate := 0,
    rebalance_memory := 8, has_initial_error := false }

/-- Network seeded with the roots `[0], [10], [20], [30]` under the `0.95`
noise draw. -/
def netC7 : NetState := Network.new iW0 iW10 iW20 iW30 cfgGT1 noise95

/-- Run of `retrain(2, keep-all)` under the identity shuffle draws. -/
def runC7A : NetState :=
  applyOps distAbs shuffleA netC7 [NetOp.opRetrain 2 (fun _ => true)]

/-- Run of `retrain(2, keep-all)` where the second rebalance pass drew the
reversed order. -/
def runC7B : NetState :=
  applyOps distAbs shuffleB netC7 [NetOp.opRetrain 2 (fun _ => true)]

/-- Network seeded with the roots `[0], [10], [20], [30]` under the identity
noise draw. -/
def netC5 : NetState := Network.new iW0 iW10 iW20 iW30 cfgGT1 idNoise

/-- Node filter keeping only nodes whose every weight is at most 30. -/
def keepSmall : GNode → Bool := fun n => n.weights.all (fun w => !FQ.gtQ w 30)

/-- Run storing the outlier input `[50]` (which grows two nodes of weight
`50`) and then retraining with the `keepSmall` filter (which removes those
two nodes without touching `min_max_weights`). -/
def runC5 : NetState :=
  applyOps distAbs shuffleA netC5
    [NetOp.opStore [some 50] 1, NetOp.opRetrain 0 keepSmall]

/-- Helper to build a plain node for concrete states. -/
def mkN (c : Coord) (w e : ℚ) : GNode :=
  { coordinate := c, weights := [some w], error := some e, hits := [], storage := [] }

/-- Concrete network state for the growth-weight edge case: four nodes of
which exactly two, at `(0,1)` and `(1,0)`, lie within Chebyshev radius 2 of
the coordinate `(0,0)`, both at Manhattan offset 1 — so the close partition
has two members and the far partition is empty. -/
def sC3 : NetState :=
  { dimension := 1, growing_threshold := 1, distribution_factor := 1 / 2,
    learning_rate := 0, time := 0, rebalance_memory := 2,
    min_max_weights := ([some 0], [some 9]),
    nodes := [((0, 1), mkN (0, 1) 1 0), ((1, 0), mkN (1, 0) 3 0),
              ((5, 5), mkN (5, 5) 7 0), ((6, 5), mkN (6, 5) 9 0)],
    inserted := [[some 1], [some 3], [some 7], [some 9]] }

/-- Specification-side definition of the claimed average (for comparison with
`get_avg_weights`): the average of an empty collection is claimed to be the
zero vector. -/
def claimAvgWeights (ws : List (List FQ)) (d : ℕ) : List FQ :=
  if ws.isEmpty then List.replicate d (some 0) else Network.get_avg_weights ws d

/-- Specification-side definition of the claimed grown-node weights in the
merged cases a/b/c: the per-dimension extrapolation with an empty side
contributing the zero vector as its average. -/
def claimGrowWeights (s : NetState) (nc : Coord) : List FQ :=
  List.zipWith Network.growthCombine
    (claimAvgWeights (Network.closeWeights s.nodes nc) s.dimension)
    (claimAvgWeights (Network.farWeights s.nodes nc) s.dimension)

/-- Concrete interior-BMU state for the error-distribution scenario: a full
3×3 block of nodes around `(1,1)`, whose four cardinal neighbours are all
present. -/
def sDistrib : NetState :=
  { dimension := 1, growing_threshold := 1, distribution_factor := 1 / 2,
    learning_rate := 0, time := 7, rebalance_memory := 3,
    min_max_weights := ([some 0], [some 8]),
    nodes := [((0, 0), mkN (0, 0) 0 0), ((0, 1), mkN (0, 1) 1 0),
              ((0, 2), mkN (0, 2) 2 0), ((1, 0), mkN (1, 0) 3 0),
              ((1, 1), mkN (1, 1) 4 1), ((1, 2), mkN (1, 2) 5 0),
              ((2, 0), mkN (2, 0) 6 0), ((2, 1), mkN (2, 1) 7 0),
              ((2, 2), mkN (2, 2) 8 2)],
    inserted := [[some 0], [some 1], [some 2], [some 3], [some 4], [some 5],
                 [some 6], [some 7], [some 8]] }

theorem cardinal_manhattan (o : ℤ × ℤ) (h : o ∈ cardinalOffsets) :
    o.1.natAbs + o.2.natAbs = 1 := by
  have he : cardinalOffsets = [(-1, 0), (0, -1), (0, 1), (1, 0)] := by decide
  rw [he] at h
  simp only [List.mem_cons, List.not_mem_nil, or_false] at h
  rcases h with rfl | rfl | rfl | rfl <;> decide

theorem nodup_chebOffsets_two : (chebOffsets 2).Nodup := by decide

theorem update_eq_distribute (s : NetState) (c : Coord) (input : List FQ)
    (err : FQ) (isNew : Bool) (n : GNode)
    (h1 : lookupKey s.nodes c = some n)
    (h2 : FQ.gtQ (FQ.add n.error err) s.growing_threshold = true)
    (h3 : Network.isBoundaryL s.nodes c = false) :
    Network.update s c input err isNew =
      { s with nodes := (Network.distributeNodes s.growing_threshold
          s.distribution_factor c (modifyKey c (Network.accumulate s err isNew) s.nodes)) } := by
  have hl : lookupKey (modifyKey c (Network.accumulate s err isNew) s.nodes) c
      = some (Network.accumulate s err isNew n) := by
    rw [lookup_modifyKey_self, h1]
    rfl
  have hb : Network.isBoundaryL (modifyKey c (Network.accumulate s err isNew) s.nodes) c
      = false := by rw [isBoundaryL_modifyKey]; exact h3
  have hx : FQ.gtQ (Network.accumulate s err isNew n).error s.growing_threshold = true := h2
  unfold Network.update
  simp only [hl, hx, hb]
  rfl

theorem update_state_cases (s : NetState) (c : Coord) (input : List FQ)
    (err : FQ) (isNew : Bool) :
    Network.update s c input err isNew =
        { s with nodes := modifyKey c (Network.accumulate s err isNew) s.nodes } ∨
      Network.update s c input err isNew =
        { s with nodes := (Network.distributeNodes s.growing_threshold
            s.distribution_factor c (modifyKey c (Network.accumulate s err isNew) s.nodes)) } ∨
      (∃ offs : List (ℤ × ℤ), (∀ o ∈ offs, o ∈ cardinalOffsets) ∧
        Network.update s c input err isNew =
          (offs.map (fun o => (coordAdd c o,
              Network.growNodeWeights
                { s with nodes := modifyKey c (Network.accumulate s err isNew) s.nodes }
                (coordAdd c o)))).foldl
            (fun st q => Network.insertNode st q.1 q.2)
            { s with nodes := modifyKey c (Network.accumulate s err isNew) s.nodes }) ∨
      (∃ lr, Network.update s c input err isNew =
        { s with nodes := (Network.adjustNodes lr c input
            (modifyKey c (Network.accumulate s err isNew) s.nodes)) }) := by
  unfold Network.update
  cases hm : lookupKey (modifyKey c (Network.accumulate s err isNew) s.nodes) c with
  | none => simp only [hm]; exact Or.inl trivial
  | some n =>
    simp only [hm]
    by_cases hg : (FQ.gtQ n.error s.growing_threshold &&
        !Network.isBoundaryL (modifyKey c (Network.accumulate s err isNew) s.nodes) c) = true
    · rw [if_pos hg]
      exact Or.inr (Or.inl rfl)
    · rw [if_neg hg]
      by_cases hg2 : (FQ.gtQ n.error s.growing_threshold &&
          Network.isBoundaryL (modifyKey c (Network.accumulate s err isNew) s.nodes) c) = true
      · rw [if_pos hg2]
        refine Or.inr (Or.inr (Or.inl ⟨_, ?_, rfl⟩))
        intro o ho
        exact List.mem_of_mem_filter ho
      · rw [if_neg hg2]
        exact Or.inr (Or.inr (Or.inr ⟨_, rfl⟩))

theorem keys_foldl_insertNode :
    ∀ (ps : List (Coord × List FQ)) (st : NetState) (k : Coord),
      k ∈ ((ps.foldl (fun st q => Network.insertNode st q.1 q.2) st).nodes.map Prod.fst) →
        k ∈ st.nodes.map Prod.fst ∨ k ∈ ps.map Prod.fst := by
  intro ps
  induction ps with
  | nil => intro st k hk; exact Or.inl hk
  | cons q rest ih =>
    intro st k hk
    rw [List.foldl_cons] at hk
    rcases ih _ _ hk with hk2 | hk2
    · rcases mem_keys_insertKey _ _ _ _ hk2 with hk3 | hk3
      · exact Or.inr (by simp [hk3])
      · exact Or.inl hk3
    · exact Or.inr (by simp only [List.map_cons, List.mem_cons]; exact Or.inr hk2)

theorem length_foldl_insertNode :
    ∀ (ps : List (Coord × List FQ)) (st : NetState),
      st.nodes.length ≤
        ((ps.foldl (fun st q => Network.insertNode st q.1 q.2) st).nodes.length) := by
  intro ps
  induction ps with
  | nil => intro st; exact Nat.le_refl _
  | cons q rest ih =>
    intro st
    rw [List.foldl_cons]
    refine Nat.le_trans ?_ (ih (Network.insertNode st q.1 q.2))
    exact length_le_insertKey _ _ _

theorem length_update_ge (s : NetState) (c : Coord) (input : List FQ)
    (err : FQ) (isNew : Bool) :
    s.nodes.length ≤ (Network.update s c input err isNew).nodes.length := by
  rcases update_state_cases s c input err isNew with h | h | ⟨offs, _, h⟩ | ⟨lr, h⟩
  · rw [h]; simp [length_modifyKey]
  · rw [h]
    simp only [Network.distributeNodes]
    rw [length_foldl_modify (fun o => coordAdd c o) (fun o => Network.scaleError s.distribution_factor o),
      length_modifyKey, length_modifyKey]
  · rw [h]
    exact Nat.le_trans (by rw [length_modifyKey]) (length_foldl_insertNode _ _)
  · rw [h]
    simp only [Network.adjustNodes]
    rw [length_foldl_modify (fun o => coordAdd c o)
        (fun _ n => { n with weights := Network.adjustW n.weights input lr }),
      length_modifyKey, length_modifyKey]

theorem length_train_ge (dist : List FQ → List FQ → FQ) (s : NetState)
    (input : List FQ) (isNew : Bool) :
    s.nodes.length ≤ (Network.train dist s input isNew).nodes.length := by
  unfold Network.train
  cases hb : Network.find_bmu dist s input with
  | none => exact Nat.le_refl _
  | some q =>
    cases q with
    | mk c n =>
      simp only [Network.addToStorage, length_modifyKey]
      exact length_update_ge _ _ _ _ _

theorem length_store_ge (dist : List FQ → List FQ → FQ) (s : NetState)
    (input : List FQ) (t : ℕ) :
    s.nodes.length ≤ (Network.store dist s input t).nodes.length := by
  unfold Network.store
  exact length_train_ge dist { s with time := t } input true

theorem length_batch_fold_ge (dist : List FQ → List FQ → FQ) :
    ∀ (phase1 : List (Option (Coord × GNode) × List FQ)) (s0 : NetState),
      s0.nodes.length ≤
        ((phase1.foldl
          (fun st q =>
            match q.1 with
            | none => st
            | some (c, n) =>
              Network.addToStorage (Network.update st c q.2 (dist n.weights q.2) true) c q.2)
          s0).nodes.length) := by
  intro phase1
  induction phase1 with
  | nil => intro s0; exact Nat.le_refl _
  | cons q rest ih =>
    intro s0
    rw [List.foldl_cons]
    refine Nat.le_trans ?_ (ih _)
    cases hq : q.1 with
    | none => exact Nat.le_refl _
    | some cn =>
      cases cn with
      | mk c n =>
        simp only [Network.addToStorage, length_modifyKey]
        exact length_update_ge _ _ _ _ _

theorem length_store_batch_ge (dist : List FQ → List FQ → FQ) (s : NetState)
    (inputs : List (List FQ)) (t : ℕ) :
    s.nodes.length ≤ (Network.store_batch dist s inputs t).nodes.length := by
  have h := length_batch_fold_ge dist
    (inputs.map (fun it => (Network.find_bmu dist { s with time := t } it, it)))
    { s with time := t }
  exact h

theorem length_train_fold_ge (dist : List FQ → List FQ → FQ) :
    ∀ (items : List (List FQ)) (s1 : NetState),
      s1.nodes.length ≤
        ((items.foldl (fun st2 it => Network.train dist st2 it false) s1).nodes.length) := by
  intro items
  induction items with
  | nil => intro s1; exact Nat.le_refl _
  | cons it rest ih =>
    intro s1
    rw [List.foldl_cons]
    exact Nat.le_trans (length_train_ge _ _ _ _) (ih _)

theorem length_rebalance_ge (dist : List FQ → List FQ → FQ)
    (sh : ℕ → List (List FQ) → List (List FQ)) (s : NetState) (count : ℕ) :
    s.nodes.length ≤ (Network.rebalance dist sh s count).nodes.length := by
  unfold Network.rebalance
  generalize List.range count = ks
  induction ks generalizing s with
  | nil => exact Nat.le_refl _
  | cons k rest ih =>
    rw [List.foldl_cons]
    refine Nat.le_trans ?_ (ih _)
    have h2 := length_train_fold_ge dist
      (sh k ((s.nodes.map (fun p => p.2.storage)).flatten))
      { s with nodes := s.nodes.map (fun p => (p.1, { p.2 with storage := [] })) }
    simp only [List.length_map] at h2
    exact h2

theorem compact_removed_bound (orig : ℕ) :
    ∀ (fl : List (Coord × GNode)) (acc : List Coord), 4 ≤ orig - acc.length →
      4 ≤ orig - (fl.foldl
        (fun (acc : List Coord) p =>
          if orig - acc.length > 4 then acc ++ [p.1] else acc) acc).length := by
  intro fl
  induction fl with
  | nil => intro acc h; exact h
  | cons p rest ih =>
    intro acc h
    rw [List.foldl_cons]
    by_cases hc : orig - acc.length > 4
    · rw [if_pos hc]
      refine ih _ ?_
      simp only [List.length_append, List.length_cons, List.length_nil]
      omega
    · rw [if_neg hc]
      exact ih _ h

theorem length_foldl_eraseKey :
    ∀ (cs : List Coord) (l : List (Coord × GNode)),
      l.length - cs.length ≤ (cs.foldl (fun ns c => eraseKey c ns) l).length := by
  intro cs
  induction cs with
  | nil => intro l; simp
  | cons c rest ih =>
    intro l
    rw [List.foldl_cons]
    have h1 := length_eraseKey_ge c l
    have h2 := ih (eraseKey c l)
    simp only [List.length_cons]
    omega

theorem compact_length_ge (s : NetState) (keep : GNode → Bool)
    (h4 : 4 ≤ s.nodes.length) :
    4 ≤ (Network.compact s keep).nodes.length := by
  show 4 ≤ (((s.nodes.filter (fun p => !keep p.2)).foldl
      (fun (acc : List Coord) p =>
        if s.nodes.length - acc.length > 4 then acc ++ [p.1] else acc) []).foldl
      (fun ns c => eraseKey c ns) s.nodes).length
  have hb := compact_removed_bound s.nodes.length
    (s.nodes.filter (fun p => !keep p.2)) [] (by simpa using h4)
  have he := length_foldl_eraseKey
    ((s.nodes.filter (fun p => !keep p.2)).foldl
      (fun (acc : List Coord) p =>
        if s.nodes.length - acc.length > 4 then acc ++ [p.1] else acc) [])
    s.nodes
  omega

theorem bmu_fold_mem (dist : List FQ → List FQ → FQ) (input : List FQ) :
    ∀ (l : List (Coord × GNode)) (acc : Option (Coord × GNode × FQ))
      (r : Coord × GNode × FQ),
      (l.foldl
        (fun (acc : Option (Coord × GNode × FQ)) p =>
          let d := dist p.2.weights input
          match acc with
          | none => some (p.1, p.2, d)
          | some b => if FQ.blt d b.2.2 then some (p.1, p.2, d) else some b)
        acc) = some r →
      (∃ p ∈ l, p.1 = r.1) ∨ acc = some r := by
  intro l
  induction l with
  | nil => intro acc r h; exact Or.inr h
  | cons p rest ih =>
    intro acc r h
    rw [List.foldl_cons] at h
    rcases ih _ _ h with h2 | h2
    · obtain ⟨q, hq, hq2⟩ := h2
      exact Or.inl ⟨q, List.mem_cons_of_mem _ hq, hq2⟩
    · cases acc with
      | none =>
        simp only [] at h2
        obtain rfl : (p.1, p.2, dist p.2.weights input) = r := Option.some.inj h2
        exact Or.inl ⟨p, List.mem_cons_self _ _, rfl⟩
      | some b =>
        simp only [] at h2
        by_cases hlt : FQ.blt (dist p.2.weights input) b.2.2 = true
        · rw [if_pos hlt] at h2
          obtain rfl : (p.1, p.2, dist p.2.weights input) = r := Option.some.inj h2
          exact Or.inl ⟨p, List.mem_cons_self _ _, rfl⟩
        · rw [if_neg hlt] at h2
          exact Or.inr h2

theorem find_bmu_mem (dist : List FQ → List FQ → FQ) (s : NetState)
    (input : List FQ) (c : Coord) (n : GNode)
    (h : Network.find_bmu dist s input = some (c, n)) :
    c ∈ s.nodes.map Prod.fst := by
  unfold Network.find_bmu at h
  cases hf : (s.nodes.foldl
      (fun (acc : Option (Coord × GNode × FQ)) p =>
        let d := dist p.2.weights input
        match acc with
        | none => some (p.1, p.2, d)
        | some b => if FQ.blt d b.2.2 then some (p.1, p.2, d) else some b)
      none) with
  | none => rw [hf] at h; exact absurd h (by simp)
  | some r =>
    rw [hf] at h
    simp only [Option.map_some'] at h
    rcases bmu_fold_mem dist input s.nodes none r hf with h2 | h2
    · obtain ⟨q, hq, hq2⟩ := h2
      have hc : r.1 = c := congrArg Prod.fst (Option.some.inj h)
      rw [← hc, ← hq2]
      exact List.mem_map_of_mem Prod.fst hq
    · exact absurd h2 (by simp)

theorem keys_update_sub (s : NetState) (c : Coord) (input : List FQ)
    (err : FQ) (isNew : Bool) (k : Coord)
    (hk : k ∈ (Network.update s c input err isNew).nodes.map Prod.fst) :
    k ∈ s.nodes.map Prod.fst ∨ ∃ o ∈ cardinalOffsets, k = coordAdd c o := by
  rcases update_state_cases s c input err isNew with h | h | ⟨offs, hoffs, h⟩ | ⟨lr, h⟩
  · rw [h] at hk
    exact Or.inl (by rwa [keys_modifyKey] at hk)
  · rw [h] at hk
    simp only [Network.distributeNodes] at hk
    rw [keys_foldl_modify (fun o => coordAdd c o)
        (fun o => Network.scaleError s.distribution_factor o),
      keys_modifyKey, keys_modifyKey] at hk
    exact Or.inl hk
  · rw [h] at hk
    rcases keys_foldl_insertNode _ _ _ hk with hk2 | hk2
    · rw [keys_modifyKey] at hk2
      exact Or.inl hk2
    · simp only [List.map_map, List.mem_map, Function.comp] at hk2
      obtain ⟨o, ho, ho2⟩ := hk2
      exact Or.inr ⟨o, hoffs o ho, ho2.symm⟩
  · rw [h] at hk
    simp only [Network.adjustNodes] at hk
    rw [keys_foldl_modify (fun o => coordAdd c o)
        (fun _ n => { n with weights := Network.adjustW n.weights input lr }),
      keys_modifyKey, keys_modifyKey] at hk
    exact Or.inl hk

theorem manhattan_coordAdd (c : Coord) (o : ℤ × ℤ) :
    manhattanDist (coordAdd c o) c = o.1.natAbs + o.2.natAbs := by
  simp only [manhattanDist, coordAdd]
  omega

/-- Envelope invariant: the network's `min_max_weights` pair is the
elementwise min/max of all weight vectors ever inserted. -/
def MmInv (s : NetState) : Prop :=
  s.min_max_weights = envelopeOfList s.dimension s.inserted

theorem envelopeOfList_append_one (d : ℕ) (ws : List (List FQ)) (w : List FQ) :
    envelopeOfList d (ws ++ [w]) = Network.update_min_max (envelopeOfList d ws) w := by
  simp [envelopeOfList, List.foldl_append]

theorem mmInv_insertNode (st : NetState) (nc : Coord) (w : List FQ)
    (h : MmInv st) : MmInv (Network.insertNode st nc w) := by
  unfold MmInv Network.insertNode at *
  simp only []
  rw [h, envelopeOfList_append_one]

theorem mmInv_foldl_insertNode :
    ∀ (ps : List (Coord × List FQ)) (st : NetState), MmInv st →
      MmInv (ps.foldl (fun st q => Network.insertNode st q.1 q.2) st) := by
  intro ps
  induction ps with
  | nil => intro st h; exact h
  | cons q rest ih =>
    intro st h
    rw [List.foldl_cons]
    exact ih _ (mmInv_insertNode _ _ _ h)

theorem mmInv_set_nodes (s : NetState) (l : List (Coord × GNode))
    (h : MmInv s) : MmInv { s with nodes := l } := h

theorem mmInv_update (s : NetState) (c : Coord) (input : List FQ)
    (err : FQ) (isNew : Bool) (h : MmInv s) :
    MmInv (Network.update s c input err isNew) := by
  rcases update_state_cases s c input err isNew with hc | hc | ⟨offs, _, hc⟩ | ⟨lr, hc⟩
  · rw [hc]; exact mmInv_set_nodes s _ h
  · rw [hc]; exact mmInv_set_nodes s _ h
  · rw [hc]
    exact mmInv_foldl_insertNode _ _ (mmInv_set_nodes s _ h)
  · rw [hc]; exact mmInv_set_nodes s _ h

theorem mmInv_train (dist : List FQ → List FQ → FQ) (s : NetState)
    (input : List FQ) (isNew : Bool) (h : MmInv s) :
    MmInv (Network.train dist s input isNew) := by
  unfold Network.train
  cases hb : Network.find_bmu dist s input with
  | none => exact h
  | some q =>
    cases q with
    | mk c n => exact mmInv_set_nodes _ _ (mmInv_update _ _ _ _ _ h)

theorem mmInv_store (dist : List FQ → List FQ → FQ) (s : NetState)
    (input : List FQ) (t : ℕ) (h : MmInv s) :
    MmInv (Network.store dist s input t) :=
  mmInv_train dist { s with time := t } input true h

theorem mmInv_batch_fold (dist : List FQ → List FQ → FQ) :
    ∀ (phase1 : List (Option (Coord × GNode) × List FQ)) (s0 : NetState), MmInv s0 →
      MmInv (phase1.foldl
        (fun st q =>
          match q.1 with
          | none => st
          | some (c, n) =>
            Network.addToStorage (Network.update st c q.2 (dist n.weights q.2) true) c q.2)
        s0) := by
  intro phase1
  induction phase1 with
  | nil => intro s0 h; exact h
  | cons q rest ih =>
    intro s0 h
    rw [List.foldl_cons]
    refine ih _ ?_
    cases hq : q.1 with
    | none => exact h
    | some cn =>
      cases cn with
      | mk c n => exact mmInv_set_nodes _ _ (mmInv_update _ _ _ _ _ h)

theorem mmInv_store_batch (dist : List FQ → List FQ → FQ) (s : NetState)
    (inputs : List (List FQ)) (t : ℕ) (h : MmInv s) :
    MmInv (Network.store_batch dist s inputs t) := by
  have h2 := mmInv_batch_fold dist
    (inputs.map (fun it => (Network.find_bmu dist { s with time := t } it, it)))
    { s with time := t } h
  exact h2

theorem mmInv_train_fold (dist : List FQ → List FQ → FQ) :
    ∀ (items : List (List FQ)) (s1 : NetState), MmInv s1 →
      MmInv (items.foldl (fun st2 it => Network.train dist st2 it false) s1) := by
  intro items
  induction items with
  | nil => intro s1 h; exact h
  | cons it rest ih =>
    intro s1 h
    rw [List.foldl_cons]
    exact ih _ (mmInv_train _ _ _ _ h)

theorem mmInv_rebalance (dist : List FQ → List FQ → FQ)
    (sh : ℕ → List (List FQ) → List (List FQ)) (s : NetState) (count : ℕ)
    (h : MmInv s) : MmInv (Network.rebalance dist sh s count) := by
  unfold Network.rebalance
  generalize List.range count = ks
  induction ks generalizing s with
  | nil => exact h
  | cons k rest ih =>
    rw [List.foldl_cons]
    refine ih _ ?_
    have h2 := mmInv_train_fold dist
      (sh k ((s.nodes.map (fun p => p.2.storage)).flatten))
      { s with nodes := s.nodes.map (fun p => (p.1, { p.2 with storage := [] })) }
      (mmInv_set_nodes s _ h)
    exact h2

theorem mmInv_compact (s : NetState) (keep : GNode → Bool) (h : MmInv s) :
    MmInv (Network.compact s keep) := h

theorem mmInv_retrain (dist : List FQ → List FQ → FQ)
    (sh : ℕ → List (List FQ) → List (List FQ)) (s : NetState) (count : ℕ)
    (keep : GNode → Bool) (h : MmInv s) :
    MmInv (Network.retrain dist sh s count keep) :=
  mmInv_compact _ _ (mmInv_rebalance _ _ _ _ (mmInv_compact _ _ h))

theorem mmInv_new (r00 r01 r11 r10 : List FQ) (cfg : NetworkConfig)
    (noiseF : FQ → FQ) : MmInv (Network.new r00 r01 r11 r10 cfg noiseF) := by
  unfold MmInv Network.new envelopeOfList
  simp only [List.foldl_map]

theorem mmInv_applyOp (dist : List FQ → List FQ → FQ)
    (sh : ℕ → List (List FQ) → List (List FQ)) (s : NetState) (op : NetOp)
    (h : MmInv s) : MmInv (applyOp dist sh s op) := by
  cases op with
  | opStore input t => exact mmInv_store dist s input t h
  | opStoreBatch inputs t => exact mmInv_store_batch dist s inputs t h
  | opRetrain count keep => exact mmInv_retrain dist sh s count keep h

theorem mmInv_applyOps (dist : List FQ → List FQ → FQ)
    (sh : ℕ → List (List FQ) → List (List FQ)) :
    ∀ (ops : List NetOp) (s : NetState), MmInv s → MmInv (applyOps dist sh s ops) := by
  intro ops
  induction ops with
  | nil => intro s h; exact h
  | cons op rest ih =>
    intro s h
    exact ih _ (mmInv_applyOp dist sh s op h)

theorem len4_applyOp (dist : List FQ → List FQ → FQ)
    (sh : ℕ → List (List FQ) → List (List FQ)) (s : NetState) (op : NetOp)
    (h : 4 ≤ s.nodes.length) : 4 ≤ (applyOp dist sh s op).nodes.length := by
  cases op with
  | opStore input t => exact Nat.le_trans h (length_store_ge dist s input t)
  | opStoreBatch inputs t => exact Nat.le_trans h (length_store_batch_ge dist s inputs t)
  | opRetrain count keep =>
    exact compact_length_ge _ _
      (Nat.le_trans (compact_length_ge _ _ h) (length_rebalance_ge _ _ _ _))

theorem len4_applyOps (dist : List FQ → List FQ → FQ)
    (sh : ℕ → List (List FQ) → List (List FQ)) :
    ∀ (ops : List NetOp) (s : NetState), 4 ≤ s.nodes.length →
      4 ≤ (applyOps dist sh s ops).nodes.length := by
  intro ops
  induction ops with
  | nil => intro s h; exact h
  | cons op rest ih =>
    intro s h
    exact ih _ (len4_applyOp dist sh s op h)

theorem applyOp_no_shuffle (dist : List FQ → List FQ → FQ)
    (sh1 sh2 : ℕ → List (List FQ) → List (List FQ)) (s : NetState) (op : NetOp)
    (h : op.usesShuffle = false) :
    applyOp dist sh1 s op = applyOp dist sh2 s op := by
  cases op with
  | opStore input t => rfl
  | opStoreBatch inputs t => rfl
  | opRetrain count keep => exact absurd h (by simp [NetOp.usesShuffle])

theorem scanl_getD_zero (b : ℤ) (l : List ℤ) :
    (List.scanl (· + ·) b l).getD 0 0 = b := by
  cases l <;> simp [List.scanl]

theorem scanl_add_getD (l : List ℤ) :
    ∀ (a : ℤ) (i : ℕ), i < l.length →
      (List.scanl (· + ·) a l).getD (i + 1) 0 =
        (List.scanl (· + ·) a l).getD i 0 + l.getD i 0 := by
  induction l with
  | nil => intro a i h; simp at h
  | cons d ds ih =>
    intro a i h
    rw [List.scanl_cons]
    cases i with
    | zero =>
      simp only [List.singleton_append, List.getD_cons_succ, List.getD_cons_zero]
      rw [scanl_getD_zero]
    | succ j =>
      simp only [List.singleton_append, List.getD_cons_succ]
      exact ih (a + d) j (by simpa using h)

theorem get_avg_weights_nil (d : ℕ) :
    Network.get_avg_weights [] d = List.replicate d none := by
  simp only [Network.get_avg_weights, List.foldl_nil, List.map_replicate]
  rw [show FQ.div (some 0) (some ((0 : ℕ) : ℚ)) = none by simp [FQ.div]]

theorem avg_fold_length :
    ∀ (ws : List (List FQ)) (acc : List FQ) (k d : ℕ), acc.length = d →
      (∀ w ∈ ws, w.length = d) →
      ((ws.foldl (fun (ac : List FQ × ℕ) w =>
        (List.zipWith FQ.add ac.1 w, ac.2 + 1)) (acc, k)).1).length = d := by
  intro ws
  induction ws with
  | nil => intro acc k d h _; exact h
  | cons w rest ih =>
    intro acc k d h hall
    rw [List.foldl_cons]
    refine ih _ _ _ ?_ (fun w2 hw2 => hall w2 (List.mem_cons_of_mem _ hw2))
    rw [List.length_zipWith, h, hall w (List.mem_cons_self _ _)]
    exact Nat.min_self d

theorem get_avg_weights_length (ws : List (List FQ)) (d : ℕ)
    (h : ∀ w ∈ ws, w.length = d) :
    (Network.get_avg_weights ws d).length = d := by
  unfold Network.get_avg_weights
  simp only [List.length_map]
  exact avg_fold_length ws (List.replicate d (some 0)) 0 d (by simp) h

theorem growthCombine_nan_left (w : FQ) : Network.growthCombine none w = none := by
  cases w <;> rfl

theorem growthCombine_nan_right (w : FQ) : Network.growthCombine w none = none := by
  cases w <;> rfl

theorem zipWith_growthCombine_nan_left :
    ∀ (d : ℕ) (ys : List FQ), ys.length = d →
      List.zipWith Network.growthCombine (List.replicate d none) ys =
        List.replicate d none := by
  intro d
  induction d with
  | zero => intro ys h; simp
  | succ k ih =>
    intro ys h
    cases ys with
    | nil => simp at h
    | cons y rest =>
      simp only [List.replicate_succ, List.zipWith_cons_cons]
      rw [growthCombine_nan_left, ih rest (by simpa using h)]

theorem zipWith_growthCombine_nan_right :
    ∀ (d : ℕ) (xs : List FQ), xs.length = d →
      List.zipWith Network.growthCombine xs (List.replicate d none) =
        List.replicate d none := by
  intro d
  induction d with
  | zero => intro xs h; simp
  | succ k ih =>
    intro xs h
    cases xs with
    | nil => simp at h
    | cons x rest =>
      simp only [List.replicate_succ, List.zipWith_cons_cons]
      rw [growthCombine_nan_right, ih rest (by simpa using h)]

theorem coordAdd_zero (c : Coord) : coordAdd c (0, 0) = c := by
  cases c with
  | mk a b => simp [coordAdd]

/-- C1: after `accept_route_state`, the CURRENT_CAPACITY activity states form
the prefix sums `current[i] = current[i-1] + demand[i]` with
`current[start] = -(sum of negative demands)`; in particular, for demands
`[-1, 2, -3]` with capacity 10 the states at (start, activities, end) are
`(4, [3, 5, 2], 2)`, for `[1, -2, 3]` they are `(2, [3, 1, 4], 4)`, and for
`[0, 1, 0]` they are `(0, [0, 1, 1], 1)`. -/
theorem c1_capacity_prefix_sums (ds : List ℤ) (i : ℕ) (h : i < ds.length) :
    (Capacity.currentLoads ds).getD 0 0 = -Capacity.negativeDemandSum ds ∧
    (Capacity.currentLoads ds).getD (i + 1) 0 =
      (Capacity.currentLoads ds).getD i 0 + ds.getD i 0 ∧
    Capacity.capacityStates [-1, 2, -3] = (4, [3, 5, 2], 2) ∧
    Capacity.capacityStates [1, -2, 3] = (2, [3, 1, 4], 4) ∧
    Capacity.capacityStates [0, 1, 0] = (0, [0, 1, 1], 1) := by
  refine ⟨?_, ?_, by decide, by decide, by decide⟩
  · unfold Capacity.currentLoads
    rw [scanl_getD_zero]
    rfl
  · exact scanl_add_getD ds (Capacity.startLoad ds) i h

/-- Witness for C1 at the demand list `[-1, 2, -3]` and activity index 0. -/
theorem c1_capacity_prefix_sums_witness :
    (Capacity.currentLoads [-1, 2, -3]).getD 0 0 =
      -Capacity.negativeDemandSum [-1, 2, -3] ∧
    (Capacity.currentLoads [-1, 2, -3]).getD 1 0 =
      (Capacity.currentLoads [-1, 2, -3]).getD 0 0 + ([-1, 2, -3] : List ℤ).getD 0 0 ∧
    Capacity.capacityStates [-1, 2, -3] = (4, [3, 5, 2], 2) ∧
    Capacity.capacityStates [1, -2, 3] = (2, [3, 1, 4], 4) ∧
    Capacity.capacityStates [0, 1, 0] = (0, [0, 1, 1], 1) :=
  c1_capacity_prefix_sums [-1, 2, -3] 0 (by decide)


/-- C2: in the `(exceeds, interior)` branch of `Network::update`, the BMU's
error is set to `0.5 * growing_threshold`, and every existing neighbour
within Chebyshev radius 2 at offset `(x, y)` gains
`distribution_factor / (|x| + |y|)` times its own current error; every other
node is untouched and no node is added or removed. -/
theorem c2_error_distribution (s : NetState) (c : Coord) (input : List FQ)
    (err : FQ) (isNew : Bool) (n : GNode)
    (h1 : lookupKey s.nodes c = some n)
    (h2 : FQ.gtQ (FQ.add n.error err) s.growing_threshold = true)
    (h3 : Network.isBoundaryL s.nodes c = false) (c' : Coord) :
    lookupKey (Network.update s c input err isNew).nodes c' =
      if c' = c then
        some { n with error := some (s.growing_threshold / 2),
                      hits := if isNew then newHit s.time s.rebalance_memory n.hits
                              else n.hits }
      else if (c'.1 - c.1).natAbs ≤ 2 ∧ (c'.2 - c.2).natAbs ≤ 2 then
        (lookupKey s.nodes c').map
          (Network.scaleError s.distribution_factor (c'.1 - c.1, c'.2 - c.2))
      else lookupKey s.nodes c' := by
  rw [update_eq_distribute s c input err isNew n h1 h2 h3]
  dsimp only
  rw [Network.distributeNodes]
  rw [lookup_foldl_modify (Network.scaleError s.distribution_factor) c c' (chebOffsets 2) _
    nodup_chebOffsets_two]
  by_cases hcc : c' = c
  · subst hcc
    rw [if_neg (show ¬ ((c'.1 - c'.1, c'.2 - c'.2) ∈ chebOffsets 2) by
      simp only [sub_self]; decide)]
    rw [lookup_modifyKey_self, lookup_modifyKey_self, h1, if_pos rfl]
    rfl
  · have hne0 : (c'.1 - c.1, c'.2 - c.2) ≠ ((0 : ℤ), (0 : ℤ)) := by
      intro h
      apply hcc
      have h1' : c'.1 - c.1 = 0 := congrArg Prod.fst h
      have h2' : c'.2 - c.2 = 0 := congrArg Prod.snd h
      exact Prod.ext (by omega) (by omega)
    rw [if_neg hcc]
    by_cases hbb : (c'.1 - c.1).natAbs ≤ 2 ∧ (c'.2 - c.2).natAbs ≤ 2
    · rw [if_pos ((mem_chebOffsets_two _).mpr ⟨hne0, hbb.1, hbb.2⟩), if_pos hbb,
        lookup_modifyKey_ne _ _ _ _ hcc, lookup_modifyKey_ne _ _ _ _ hcc]
    · rw [if_neg (fun hm => hbb ⟨((mem_chebOffsets_two _).mp hm).2.1,
        ((mem_chebOffsets_two _).mp hm).2.2⟩), if_neg hbb,
        lookup_modifyKey_ne _ _ _ _ hcc, lookup_modifyKey_ne _ _ _ _ hcc]

/-- Witness for C2 on the concrete 3-by-3 state `sDistrib`: training the
interior BMU `(1, 1)` with an error increment that exceeds the threshold
raises the error of the neighbour at offset `(1, 1)` from `2` to `5 / 2`. -/
theorem c2_error_distribution_witness :
    lookupKey (Network.update sDistrib ((1 : ℤ), (1 : ℤ)) [some 0] (some 1) false).nodes
        ((2 : ℤ), (2 : ℤ)) =
      some { coordinate := ((2 : ℤ), (2 : ℤ)), weights := [some 8],
             error := some (5 / 2), hits := [], storage := [] } := by
  rw [c2_error_distribution sDistrib ((1 : ℤ), (1 : ℤ)) [some 0] (some 1) false
    (mkN ((1 : ℤ), (1 : ℤ)) 4 1) (by decide) (by decide) (by decide) ((2 : ℤ), (2 : ℤ))]
  decide

/-- Counterexample to C3 as stated: at `(0, 0)` in `sC3` the far partition is
empty, and the grown weight vector is `[NaN]` (the empty partition's average
is `0.0 / 0.0`), not the `[4]` that the zero-vector reading of the spec
predicts. -/
theorem c3_counterexample :
    Network.growNodeWeights sC3 ((0 : ℤ), (0 : ℤ)) = [none] ∧
    claimGrowWeights sC3 ((0 : ℤ), (0 : ℤ)) = [some 4] ∧
    ([none] : List FQ) ≠ [some 4] :=
  ⟨by decide, by decide, by decide⟩

/-- C3 (amended): during node growth, outside case d, when the close or the
far partition is empty, the empty partition's average is `0.0 / 0.0`, NaN, per
dimension — so every dimension of the new node's weight vector is NaN, not the
zero-vector extrapolation the spec describes. -/
theorem c3_empty_partition_nan (s : NetState) (nc : Coord)
    (hd : ¬((Network.closeWeights s.nodes nc).length = 1 ∧
        Network.farWeights s.nodes nc = []))
    (he : Network.closeWeights s.nodes nc = [] ∨ Network.farWeights s.nodes nc = [])
    (hcl : ∀ w ∈ Network.closeWeights s.nodes nc, w.length = s.dimension)
    (hfl : ∀ w ∈ Network.farWeights s.nodes nc, w.length = s.dimension) :
    Network.growNodeWeights s nc = List.replicate s.dimension none := by
  unfold Network.growNodeWeights
  rw [if_neg hd]
  rcases he with he | he
  · rw [he, get_avg_weights_nil]
    exact zipWith_growthCombine_nan_left s.dimension _ (get_avg_weights_length _ _ hfl)
  · rw [he, get_avg_weights_nil]
    exact zipWith_growthCombine_nan_right s.dimension _ (get_avg_weights_length _ _ hcl)

/-- Witness for C3 (amended) on `sC3` at `(0, 0)`: two close neighbours, no
far neighbour, and the grown weights are all NaN. -/
theorem c3_empty_partition_nan_witness :
    Network.growNodeWeights sC3 ((0 : ℤ), (0 : ℤ)) =
      List.replicate sC3.dimension none :=
  c3_empty_partition_nan sC3 ((0 : ℤ), (0 : ℤ)) (by decide) (Or.inr (by decide))
    (by decide) (by decide)

/-- C4: for every sequence of store, store_batch and retrain operations after
`Network::new` — any node filter, rebalance count, distance, shuffle and noise
draws — the network has at least 4 nodes; `compact` never removes a node that
would leave fewer than 4. -/
theorem c4_network_size_floor (dist : List FQ → List FQ → FQ)
    (sh : ℕ → List (List FQ) → List (List FQ)) (r00 r01 r11 r10 : List FQ)
    (cfg : NetworkConfig) (noiseF : FQ → FQ) (ops : List NetOp) :
    4 ≤ (applyOps dist sh (Network.new r00 r01 r11 r10 cfg noiseF) ops).nodes.length :=
  len4_applyOps dist sh ops _ (Nat.le_refl 4)

/-- Counterexample to C5 as stated: after storing the outlier `[50]` (which
grows nodes of weight `[50]`) and retraining with a filter that removes them,
`min_max_weights` still reads `([0], [50])` while the envelope of the nodes
actually present is `([0], [30])` — `compact` never recomputes the envelope. -/
theorem c5_counterexample :
    runC5.min_max_weights ≠ envelopeOfNodes runC5 ∧
    runC5.min_max_weights = ([some 0], [some 50]) ∧
    envelopeOfNodes runC5 = ([some 0], [some 30]) :=
  ⟨by decide, by decide, by decide⟩

/-- C5 (amended): across any operation sequence after construction,
`min_max_weights` equals the elementwise min/max envelope of every weight
vector ever inserted into the network (the ghost `inserted` history) — not of
the nodes currently present, since removal never shrinks the envelope. -/
theorem c5_min_max_envelope (dist : List FQ → List FQ → FQ)
    (sh : ℕ → List (List FQ) → List (List FQ)) (r00 r01 r11 r10 : List FQ)
    (cfg : NetworkConfig) (noiseF : FQ → FQ) (ops : List NetOp) :
    MmInv (applyOps dist sh (Network.new r00 r01 r11 r10 cfg noiseF) ops) :=
  mmInv_applyOps dist sh ops _ (mmInv_new r00 r01 r11 r10 cfg noiseF)

/-- C6: every node key present after `Network::train` was either already
present or lies at Manhattan distance exactly 1 from a node present before
training — the BMU whose growth branch created it. -/
theorem c6_growth_locality (dist : List FQ → List FQ → FQ) (s : NetState)
    (input : List FQ) (isNew : Bool) (k : Coord)
    (hk : k ∈ (Network.train dist s input isNew).nodes.map Prod.fst) :
    k ∈ s.nodes.map Prod.fst ∨
      ∃ c ∈ s.nodes.map Prod.fst, manhattanDist k c = 1 := by
  unfold Network.train at hk
  cases hb : Network.find_bmu dist s input with
  | none => rw [hb] at hk; exact Or.inl hk
  | some q =>
    cases q with
    | mk c n =>
      rw [hb] at hk
      simp only [Network.addToStorage] at hk
      rw [keys_modifyKey] at hk
      rcases keys_update_sub s c input (dist n.weights input) isNew k hk with h | ⟨o, ho, hko⟩
      · exact Or.inl h
      · refine Or.inr ⟨c, find_bmu_mem dist s input c n hb, ?_⟩
        rw [hko, manhattan_coordAdd]
        exact cardinal_manhattan o ho

/-- Witness for C6: training `netC5` on the outlier `[50]` grows the node
`(1, -1)`, which is at Manhattan distance 1 from the pre-existing `(1, 0)`. -/
theorem c6_growth_locality_witness :
    (((1 : ℤ), (-1 : ℤ)) ∈ (Network.train distAbs netC5 [some 50] true).nodes.map Prod.fst) ∧
    ((((1 : ℤ), (-1 : ℤ)) ∈ netC5.nodes.map Prod.fst) ∨
      ∃ c ∈ netC5.nodes.map Prod.fst, manhattanDist ((1 : ℤ), (-1 : ℤ)) c = 1) :=
  ⟨by decide, c6_growth_locality distAbs netC5 [some 50] true ((1 : ℤ), (-1 : ℤ)) (by decide)⟩

/-- Counterexample to C7 as stated: `runC7A` and `runC7B` run the same
operation sequence from the same state and differ only in the `thread_rng`
shuffle drawn by the second rebalance pass of `retrain` (a permutation of the
same drained inputs either way), yet their final topologies differ: the node
`(-1, 1)` exists after one run and not the other. The shuffle comes from the
unseeded `rand::thread_rng()`, not from the seeded random source. -/
theorem c7_counterexample :
    lookupKey runC7A.nodes ((-1 : ℤ), (1 : ℤ)) = none ∧
    (lookupKey runC7B.nodes ((-1 : ℤ), (1 : ℤ))).isSome = true ∧
    (shuffleB 1 [iW0, iW10, iW20, iW30]).Perm [iW0, iW10, iW20, iW30] :=
  ⟨by decide, by decide, by decide⟩

/-- C7 (amended): operation sequences without `retrain` (store and
store_batch only) are independent of the `thread_rng` shuffle draws — two runs
with the same inputs coincide exactly; the rebalance pass of `retrain`
shuffles with the unseeded `rand::thread_rng()` and can change the final
topology. -/
theorem c7_store_shuffle_independent (dist : List FQ → List FQ → FQ)
    (sh1 sh2 : ℕ → List (List FQ) → List (List FQ)) (ops : List NetOp)
    (h : ∀ op ∈ ops, op.usesShuffle = false) :
    ∀ s : NetState, applyOps dist sh1 s ops = applyOps dist sh2 s ops := by
  induction ops with
  | nil => intro s; rfl
  | cons op rest ih =>
    intro s
    simp only [applyOps, List.foldl_cons]
    rw [applyOp_no_shuffle dist sh1 sh2 s op (h op (List.mem_cons_self _ _))]
    exact ih (fun op2 hop2 => h op2 (List.mem_cons_of_mem _ hop2)) _

/-- Witness for C7 (amended): a single store on `netC7` under two different
shuffle draws produces identical states. -/
theorem c7_store_shuffle_independent_witness :
    applyOps distAbs shuffleA netC7 [NetOp.opStore [some 1] 2] =
      applyOps distAbs shuffleB netC7 [NetOp.opStore [some 1] 2] :=
  c7_store_shuffle_independent distAbs shuffleA shuffleB [NetOp.opStore [some 1] 2]
    (by intro op hop; rcases List.mem_singleton.mp hop with rfl; rfl) netC7

/-- Counterexample to C8 as stated: `get_state` on a key holding a `Nat`
value, read at type `Bool`, returns `None` — it does not fail loudly, the
mismatch is indistinguishable from an absent key — while the same mismatch
through `state_mut` does panic on the `unwrap`. -/
theorem c8_counterexample :
    Stateful.get_state [(1, SVal.vNat 5)] 1 STy.tBool = none ∧
    Stateful.get_state [(1, SVal.vNat 5)] 1 STy.tNat = some (SVal.vNat 5) ∧
    Stateful.state_mut [(1, SVal.vNat 5)] 1 STy.tBool (fun _ => SVal.vBool true) =
      PanicOr.panicked :=
  ⟨by decide, by decide, by decide⟩

/-- C8 (amended): a type-mismatched read of `RefinementContext`'s keyed opaque
state map returns `None` from `get_state` (`get` then `and_then(downcast_ref)`)
exactly like an absent key; only the `state_mut` path turns the mismatch into a
panic, via `downcast_mut().unwrap()`. -/
theorem c8_state_read_mismatch (m : Stateful.StateMap) (k : ℕ) (v : SVal)
    (want : STy) (ins : Unit → SVal)
    (h1 : Stateful.lookupState m k = some v) (h2 : v.ty ≠ want) :
    Stateful.get_state m k want = none ∧
    Stateful.state_mut m k want ins = PanicOr.panicked := by
  constructor
  · unfold Stateful.get_state
    rw [h1]
    simp [downcastRef, h2]
  · unfold Stateful.state_mut
    rw [h1]
    simp [downcastRef, h2]

/-- Witness for C8 (amended): a map holding a list value read at type `Nat`
yields `None` from `get_state` and a panic from `state_mut`. -/
theorem c8_state_read_mismatch_witness :
    Stateful.get_state [(0, SVal.vListNat [1, 2])] 0 STy.tNat = none ∧
    Stateful.state_mut [(0, SVal.vListNat [1, 2])] 0 STy.tNat (fun _ => SVal.vNat 0) =
      PanicOr.panicked :=
  c8_state_read_mismatch [(0, SVal.vListNat [1, 2])] 0 (SVal.vListNat [1, 2]) STy.tNat
    (fun _ => SVal.vNat 0) (by decide) (by decide)

/-- C9: `evaluate_hard_activity` with vehicle capacity 10 and a candidate of
demand 1 inserted after position 1: route demands `[-5, 5]` give no violation,
route demands `[5, -5]` give the activity violation with code 2 and
`stopped = false`. -/
theorem c9_activity_demand_cases :
    Capacity.evaluate_hard_activity 10 [-5, 5] 1 1 = none ∧
    Capacity.evaluate_hard_activity 10 [5, -5] 1 1 = some (2, false) :=
  ⟨by decide, by decide⟩

/-- C10: the growth conditional is vacuous — for all embedded `f64` values
`w1` and `w2`, both branches of the conditional in the cases a/b/c weight
combination equal `2 * w1 - w2`, NaN propagation included. -/
theorem c10_growth_branches_equal (w1 w2 : FQ) :
    Network.growthCombine w1 w2 = FQ.sub (FQ.mul (some 2) w1) w2 := by
  cases w1 with
  | none => cases w2 <;> rfl
  | some a =>
    cases w2 with
    | none => rfl
    | some b =>
      simp only [Network.growthCombine, FQ.blt, FQ.add, FQ.sub, FQ.mul]
      split
      · exact congrArg some (by ring)
      · exact congrArg some (by ring)
